import Mathlib

/-!
# Schedulomicon: verification of the constraint-model compiler

A shallow embedding, in Lean 4, of the parts of the `schedulomicon`
scheduling system that its specification makes claims about:

* the grid factory (`sched/model.py`): main, backup and vacation grids
  with their structural constraints;
* the constraint compiler (`schedulomicon/csts.py`): consecutive-count,
  prerequisite, time-to-first, min-individual-score, allowed-roots;
* the selector DSL (`schedulomicon/parser.py`);
* config-driven constraint generation and solution I/O
  (`schedulomicon/io.py`);
* the vacation-mapping constraint builder (`sched/cogrid_csts.py`).

Decision variables are embedded as Boolean-valued functions; a set of
CP-SAT constraints becomes a predicate on such functions, so "for every
solution P holds" becomes "every assignment satisfying the constraint
predicate satisfies P".

The file is organized as all definitions first, followed by all theorems.
-/

namespace Schedulomicon

/-! ## Definitions: grid factory (`sched/model.py`)

`generate_model` creates one Boolean per `(resident, block, rotation)`
and posts `AddExactlyOne` over rotations for each `(resident, block)`.
`generate_backup` creates one Boolean per `(resident, block)` and posts
`Σ_b y[r,b] == n_backup_blocks` for each resident.
`generate_vacation` creates one Boolean per `(resident, week, rotation)`
and posts `Σ_t v[r,w,t] ≤ 1` for each `(week, resident)`.
-/

/-- Structural constraints posted by `generate_model` (`sched/model.py`):
for each resident and block, exactly one of the rotation Booleans holds
(`AddExactlyOne` asserts that exactly one literal in the list is true). -/
def mainGridCsts (residents blocks rotations : List String)
    (x : String → String → String → Bool) : Prop :=
  ∀ res ∈ residents, ∀ blk ∈ blocks,
    rotations.countP (fun rot => x res blk rot) = 1

/-- Structural constraints posted by `generate_backup` (`sched/model.py`):
the running total `ct` of a resident's backup Booleans over all blocks is
constrained to equal `n_backup_blocks`. -/
def backupGridCsts (residents blocks : List String) (nBackupBlocks : Nat)
    (y : String → String → Bool) : Prop :=
  ∀ res ∈ residents,
    (blocks.map (fun blk => (y res blk).toNat)).sum = nBackupBlocks

/-- Structural constraints posted by `generate_vacation` (`sched/model.py`):
for each week and resident, the sum of the vacation Booleans over
rotations is at most one. -/
def vacationGridCsts (residents weeks rotations : List String)
    (v : String → String → String → Bool) : Prop :=
  ∀ week ∈ weeks, ∀ res ∈ residents,
    (rotations.map (fun rot => (v res week rot).toNat)).sum ≤ 1

/-! ## Definitions: `ConsecutiveRotationCountConstraint.apply`
(`schedulomicon/csts.py`)

The constraint is applied independently per resident, so the embedding
fixes one resident and writes `x i` for
`block_assigned[(res, blocks[i], rotation)]` and `r i` for the fresh
`is_root` Boolean created at block index `i`. Forbidden and allowed roots
are given as block indices (`from_yml_dict` resolves the configured names
against the block list, so names and indices are in bijection). `n` is
`self.count` and `m` is `len(blocks)`.

The integer guard `i > len(blocks) - self.count` is rendered as
`m < i + n`, and the window test `i+j < len(blocks)-1` (with `j = n-1`
left over from the `for j in range(1, self.count)` loop) as `i + n < m`.
The rendering assumes `2 ≤ n`: for `self.count <= 1` the loop body never
binds `j` and `apply` raises a `NameError` instead of building a model.
-/

/-- The constraints `ConsecutiveRotationCountConstraint.apply` posts for
one resident at block index `i`:

* `is_root == False` when the block is a forbidden root;
* `is_root == True` when the block is an allowed root and not forbidden
  (the dead `self.allowed_roots is not False` guard is always true);
* at `i = 0`, `x[...,b_0,rot] == is_root`;
* at `i > 0`, the reified `AddBoolAnd`/`AddBoolOr` pair tying `is_root`
  to "`rot` at `i` and not at `i-1`";
* `is_root == 0` past the last position a full window fits, and otherwise
  the window clause, stated as two conjuncts: under `is_root`, the block
  one past the window (when it exists) does not carry the rotation, and
  the next `n-1` blocks do. -/
def consecCstAt (m n : Nat) (forbidden allowed : List Nat)
    (x r : Nat → Bool) (i : Nat) : Prop :=
  (i ∈ forbidden → r i = false) ∧
  (i ∉ forbidden → i ∈ allowed → r i = true) ∧
  (i = 0 → x 0 = r 0) ∧
  (i ≠ 0 →
    (r i = true → x (i - 1) = false ∧ x i = true) ∧
    (r i = false → x (i - 1) = true ∨ x i = false)) ∧
  (m < i + n → r i = false) ∧
  (i + n ≤ m → r i = true → i + n < m → x (i + n) = false) ∧
  (i + n ≤ m → r i = true → ∀ j, j < n → 1 ≤ j → x (i + j) = true)

/-- All constraints `ConsecutiveRotationCountConstraint.apply` posts for
one resident: the per-block constraints, plus the trailing loop that
re-uses the leftover loop index (`last_normal_block = i`, which is
`len(blocks) - 1` after the scan), adding the implications
`x[last] → x[i]` for `i` from `last_normal_block` on — all trivial. -/
def consecCsts (m n : Nat) (forbidden allowed : List Nat)
    (x r : Nat → Bool) : Prop :=
  (∀ i, i < m → consecCstAt m n forbidden allowed x r i) ∧
  (∀ i, i < m → m - 1 ≤ i → x (m - 1) = true → x i = true)

instance consecCstAtDecidable (m n : Nat) (forbidden allowed : List Nat)
    (x r : Nat → Bool) (i : Nat) :
    Decidable (consecCstAt m n forbidden allowed x r i) := by
  unfold consecCstAt
  refine @instDecidableAnd _ _ ?_ (@instDecidableAnd _ _ ?_
    (@instDecidableAnd _ _ ?_ (@instDecidableAnd _ _ ?_
      (@instDecidableAnd _ _ ?_ (@instDecidableAnd _ _ ?_ ?_)))))
  all_goals infer_instance

instance consecCstsDecidable (m n : Nat) (forbidden allowed : List Nat)
    (x r : Nat → Bool) : Decidable (consecCsts m n forbidden allowed x r) := by
  unfold consecCsts
  exact @instDecidableAnd _ _ (Nat.decidableBallLT m _) (Nat.decidableBallLT m _)

/-- `i` is the first block of a maximal run of the rotation: the rotation
holds at `i` and not at `i - 1` (or `i` is the first block). -/
def runStart (x : Nat → Bool) (i : Nat) : Prop :=
  x i = true ∧ (i = 0 ∨ x (i - 1) = false)

instance runStartDecidable (x : Nat → Bool) (i : Nat) :
    Decidable (runStart x i) := by
  unfold runStart; infer_instance

/-- Length of the consecutive stretch of `true`s of `x` starting at
index `i`, looking at most `rem` indices ahead. -/
def runLenFrom (x : Nat → Bool) : Nat → Nat → Nat
  | _, 0 => 0
  | i, rem + 1 => if x i then runLenFrom x (i + 1) rem + 1 else 0

/-- Length of the maximal run of the rotation starting at block `i` in a
schedule of `m` blocks. -/
def runLen (x : Nat → Bool) (m i : Nat) : Nat :=
  runLenFrom x i (m - i)

/-- Schedule used to refute the allowed-roots clause of the
consecutive-count claim: blocks 0,1 and 3,4 carry the rotation. -/
def consecXex : Nat → Bool := fun i => decide (i ∈ [0, 1, 3, 4])

/-- `is_root` assignment matching `consecXex`: runs start at 0 and 3. -/
def consecRex : Nat → Bool := fun i => decide (i ∈ [0, 3])

/-! ## Definitions: `PrerequisiteRotationConstraint.apply`
(`schedulomicon/csts.py`)

For each resident and block index `i`, the loop over
`self.prerequisites.items()` accumulates, per prerequisite group, the
integer expression `n_prereq_instances`: for each rotation of the group,
the resident's prior count (when `prior_counts` is supplied) plus the
assignment Booleans of that rotation over blocks `0..i-1`. The collected
`cst_spec_list` is then passed — after the loop, so with the entries of
every group, not just the last — to `_apply_csts`, which posts
`n_prereq_instances >= req_ct` reified on the rotation's Boolean at
block `i`.
-/

/-- Contribution of `prior_counts` for one rotation: zero when
`self.prior_counts is None`, the stored count otherwise. -/
def priorOf (priors : Option (String → String → Nat))
    (p resident : String) : Nat :=
  match priors with
  | some pc => pc p resident
  | none => 0

/-- The value of `n_prereq_instances` for group `grp` at block index `i`
(`PrerequisiteRotationConstraint.apply`). -/
def prereqInstances (priors : Option (String → String → Nat))
    (x : String → String → String → Bool) (resident : String)
    (blocks : List String) (i : Nat) (grp : List String) : Nat :=
  (grp.map (fun p =>
    priorOf priors p resident +
    ((blocks.take i).map (fun blk => (x resident blk p).toNat)).sum)).sum

/-- The `cst_spec_list` accumulated over all prerequisite groups for one
`(resident, block-index)` pair. -/
def prereqCstSpecList (prereqs : List (List String × Nat))
    (priors : Option (String → String → Nat))
    (x : String → String → String → Bool) (resident : String)
    (blocks : List String) (i : Nat) : List (Nat × Nat) :=
  prereqs.map (fun gk => (prereqInstances priors x resident blocks i gk.1, gk.2))

/-- All constraints `PrerequisiteRotationConstraint.apply` posts: for
each resident and block index, each entry of the accumulated
`cst_spec_list` becomes `n_prereq_instances >= req_ct`, enforced only if
the resident is on `rotation` at that block. -/
def prereqCsts (rotation : String) (prereqs : List (List String × Nat))
    (priors : Option (String → String → Nat))
    (residents blocks : List String)
    (x : String → String → String → Bool) : Prop :=
  ∀ res ∈ residents, ∀ i, i < blocks.length →
    ∀ spec ∈ prereqCstSpecList prereqs priors x res blocks i,
      x res (blocks.getD i "") rotation = true → spec.1 ≥ spec.2

/-- Assignment used to instantiate the prerequisite theorem: resident
`R1` does rotations `A` and `B` at block `B1` and `Ro9` at block `B2`. -/
def prereqXex : String → String → String → Bool :=
  fun _ blk rot =>
    (blk == "B1" && (rot == "A" || rot == "B")) ||
    (blk == "B2" && rot == "Ro9")

/-! ## Definitions: `TimeToFirstConstraint.apply`
(`schedulomicon/csts.py`; `sched/csts.py` is line-for-line the same)

For each resident, `count` accumulates the assignment Booleans of every
rotation of the group over the first `window_size` blocks
(`blocks[:self.window_size]`), and the posted constraint is
`model.Add(count > 1)` — a strict inequality. -/

/-- The window count of `TimeToFirstConstraint.apply` for one resident. -/
def ttfWindowCount (rotationsInGroup : List String) (windowSize : Nat)
    (blocks : List String) (res : String)
    (x : String → String → String → Bool) : Nat :=
  ((blocks.take windowSize).map (fun blk =>
    (rotationsInGroup.map (fun rot => (x res blk rot).toNat)).sum)).sum

/-- All constraints `TimeToFirstConstraint.apply` posts: for every
resident, the group count over the first `window_size` blocks is
strictly greater than 1. -/
def timeToFirstCsts (rotationsInGroup : List String) (windowSize : Nat)
    (residents blocks : List String)
    (x : String → String → String → Bool) : Prop :=
  ∀ res ∈ residents, ttfWindowCount rotationsInGroup windowSize blocks res x > 1

/-- Assignment with exactly one group rotation inside the window: the
resident is on `Ro1` at `B1` only. -/
def ttfXex : String → String → String → Bool :=
  fun _ blk rot => blk == "B1" && rot == "Ro1"

/-! ## Definitions: `MinIndividualScoreConstraint.apply`
(`schedulomicon/csts.py`)

For each resident, `res_obj` accumulates `int(scores[k]) * x[k]` with
the rotation loop outside the block loop, and the posted constraint is
`model.Add(res_obj < self.min_score)` — a strict upper bound, despite
the "Min" in the class name. -/

/-- The per-resident linear score `res_obj` of
`MinIndividualScoreConstraint.apply` (rotation-major loop order, as in
the source). -/
def resObj (scores : String → String → String → Int)
    (blocks rotations : List String) (res : String)
    (x : String → String → String → Bool) : Int :=
  (rotations.map (fun rot =>
    ((blocks.map (fun blk =>
      scores res blk rot * ((x res blk rot).toNat : Int))).sum))).sum

/-- All constraints `MinIndividualScoreConstraint.apply` posts: each
resident's linear score is strictly below `min_score`. -/
def minIndividualScoreCsts (scores : String → String → String → Int)
    (minScore : Int) (residents blocks rotations : List String)
    (x : String → String → String → Bool) : Prop :=
  ∀ res ∈ residents, resObj scores blocks rotations res x < minScore

/-! ## Definitions: `AllowedRootsConstraint.apply`
(`schedulomicon/csts.py`)

For each resident and block index the method creates a fresh `is_root`
Boolean and pins it: `is_root == 1` when the block is in
`allowed_roots`, `is_root == 0` otherwise. No constraint mentions any
main-grid variable. -/

/-- All constraints `AllowedRootsConstraint.apply` posts: every fresh
`is_root` Boolean is pinned to whether its block is an allowed root. -/
def allowedRootsCsts (residents blocks allowedRoots : List String)
    (isRoot : String → Nat → Bool) : Prop :=
  ∀ res ∈ residents, ∀ i, i < blocks.length →
    (blocks.getD i "" ∈ allowedRoots → isRoot res i = true) ∧
    (blocks.getD i "" ∉ allowedRoots → isRoot res i = false)

/-! ## Definitions: the selector DSL (`schedulomicon/parser.py`)

`resolve_eligible_field` builds, with `pyparsing.infix_notation`, an
infix grammar over resolved group masks with three operator levels —
unary right-associative `not` (tightest), then left-associative `and`,
then left-associative `or` — plus `(`/`)` grouping, and attaches parse
actions that evaluate during parsing: `_not_parse_action` applies `~`
elementwise; `_and_parse_action` and `_or_parse_action` take the flat
operand group pyparsing builds for a chain and fold it with `&` / `|`,
starting from `operands[0]` and then looping over *all* operands (so
the first operand enters the fold twice — harmless because elementwise
Boolean `&`/`|` are idempotent). Identifiers are resolved to their
3-D masks by `_resolve_identifier` before any combination, and the
symbolic forms `&`, `|`, `!` appear only in the tokenizer's stop list,
not in the operator table, so the closed expressions of the claim use
the word operators.

A mask is embedded as a function `α → Bool` on the abstract index space
`α` (the `(resident, block, rotation)` cells); atoms carry their
resolved masks. The parser below is a recursive-descent rendering of
`infix_notation`'s precedence climbing, fuelled for termination, with
the three parse actions applied exactly as in the source. The printer
`printPrec` emits a token string using the *claimed* precedence
(`not` over `and` over `or`, both binary levels left-associative),
inserting parentheses only where an operand's level requires them — so
the correctness theorem below checks precedence, associativity and the
elementwise evaluation at once.
-/

variable {α : Type}

/-- Tokens of a selector expression; atoms carry the mask
`_resolve_identifier` substituted for the group name. -/
inductive SelTok (α : Type) where
  | atomT : (α → Bool) → SelTok α
  | andT : SelTok α
  | orT : SelTok α
  | notT : SelTok α
  | lparT : SelTok α
  | rparT : SelTok α

/-- Selector expressions (the denotation side of the claim). -/
inductive SelExpr (α : Type) where
  | atomE : (α → Bool) → SelExpr α
  | notE : SelExpr α → SelExpr α
  | andE : SelExpr α → SelExpr α → SelExpr α
  | orE : SelExpr α → SelExpr α → SelExpr α

/-- Elementwise Boolean denotation of a selector expression. -/
def SelExpr.eval : SelExpr α → α → Bool
  | .atomE m, idx => m idx
  | .notE e, idx => !(e.eval idx)
  | .andE a b, idx => a.eval idx && b.eval idx
  | .orE a b, idx => a.eval idx || b.eval idx

/-- The denotation as a mask. -/
def evalMask (e : SelExpr α) : α → Bool := fun idx => e.eval idx

/-- `_not_parse_action`: elementwise `~`. -/
def maskNot (m : α → Bool) : α → Bool := fun idx => !(m idx)

/-- `_and_parse_action`: `a = operands[0]; for o in operands: a = a & o`
— the fold starts from the head and loops over the whole operand list,
head included. -/
def pyAndAction : List (α → Bool) → (α → Bool)
  | [] => fun _ => true
  | a :: rest => (a :: rest).foldl (fun acc o => fun idx => acc idx && o idx) a

/-- `_or_parse_action`: same shape with `|`. -/
def pyOrAction : List (α → Bool) → (α → Bool)
  | [] => fun _ => false
  | a :: rest => (a :: rest).foldl (fun acc o => fun idx => acc idx || o idx) a

mutual

/-- Lowest grammar level: an atom token or a parenthesized expression. -/
def parseAtomL (f : Nat) (ts : List (SelTok α)) :
    Option ((α → Bool) × List (SelTok α)) :=
  match f, ts with
  | 0, _ => none
  | _ + 1, SelTok.atomT m :: rest => some (m, rest)
  | f + 1, SelTok.lparT :: rest =>
    match parseOrL f rest with
    | some (v, SelTok.rparT :: rest') => some (v, rest')
    | _ => none
  | _ + 1, _ => none

/-- `not` level: right-associative unary `not`, applied via
`_not_parse_action`. -/
def parseNotL (f : Nat) (ts : List (SelTok α)) :
    Option ((α → Bool) × List (SelTok α)) :=
  match f, ts with
  | 0, _ => none
  | f + 1, SelTok.notT :: rest =>
    match parseNotL f rest with
    | some (v, rest') => some (maskNot v, rest')
    | none => none
  | f + 1, ts => parseAtomL f ts

/-- Collects the remaining operands of a flat `and` chain. -/
def parseAndRestL (f : Nat) (ts : List (SelTok α))
    (acc : List (α → Bool)) :
    Option (List (α → Bool) × List (SelTok α)) :=
  match f, ts with
  | 0, _ => none
  | f + 1, SelTok.andT :: rest =>
    match parseNotL f rest with
    | some (v, rest') => parseAndRestL f rest' (acc ++ [v])
    | none => none
  | _ + 1, ts => some (acc, ts)

/-- `and` level: a flat left-associative chain folded by
`_and_parse_action`; a single operand passes through without the action
(pyparsing only forms a group when an operator is present). -/
def parseAndL (f : Nat) (ts : List (SelTok α)) :
    Option ((α → Bool) × List (SelTok α)) :=
  match f with
  | 0 => none
  | f + 1 =>
    match parseNotL f ts with
    | some (v, rest) =>
      match parseAndRestL f rest [] with
      | some (ops, rest') =>
        some (if ops.isEmpty then v else pyAndAction (v :: ops), rest')
      | none => none
    | none => none

/-- Collects the remaining operands of a flat `or` chain. -/
def parseOrRestL (f : Nat) (ts : List (SelTok α))
    (acc : List (α → Bool)) :
    Option (List (α → Bool) × List (SelTok α)) :=
  match f, ts with
  | 0, _ => none
  | f + 1, SelTok.orT :: rest =>
    match parseAndL f rest with
    | some (v, rest') => parseOrRestL f rest' (acc ++ [v])
    | none => none
  | _ + 1, ts => some (acc, ts)

/-- `or` level, the whole grammar: a flat left-associative chain folded
by `_or_parse_action`. -/
def parseOrL (f : Nat) (ts : List (SelTok α)) :
    Option ((α → Bool) × List (SelTok α)) :=
  match f with
  | 0 => none
  | f + 1 =>
    match parseAndL f ts with
    | some (v, rest) =>
      match parseOrRestL f rest [] with
      | some (ops, rest') =>
        some (if ops.isEmpty then v else pyOrAction (v :: ops), rest')
      | none => none
    | none => none

end

/-- Print a selector expression at a precedence context: `0` allows bare
`or` chains, `1` allows bare `and` chains, `2` allows only `not`/atoms;
operands of too-low a level are parenthesized. Left operands stay at
their own level and right operands drop one level, which encodes the
left-associativity of `and` and `or`. -/
def printPrec : Nat → SelExpr α → List (SelTok α)
  | _, .atomE m => [SelTok.atomT m]
  | _, .notE e => SelTok.notT :: printPrec 2 e
  | lvl, .andE a b =>
    if lvl ≤ 1 then printPrec 1 a ++ SelTok.andT :: printPrec 2 b
    else SelTok.lparT ::
      (printPrec 1 a ++ SelTok.andT :: printPrec 2 b) ++ [SelTok.rparT]
  | lvl, .orE a b =>
    if lvl = 0 then printPrec 0 a ++ SelTok.orT :: printPrec 1 b
    else SelTok.lparT ::
      (printPrec 0 a ++ SelTok.orT :: printPrec 1 b) ++ [SelTok.rparT]

/-- Head and tail of the flat operand list of a left-nested `and` comb. -/
def andSpineH : SelExpr α → SelExpr α × List (SelExpr α)
  | .andE a b => ((andSpineH a).1, (andSpineH a).2 ++ [b])
  | e => (e, [])

/-- Head and tail of the flat operand list of a left-nested `or` comb. -/
def orSpineH : SelExpr α → SelExpr α × List (SelExpr α)
  | .orE a b => ((orSpineH a).1, (orSpineH a).2 ++ [b])
  | e => (e, [])

/-- Tokens of the continuation of an `and` chain. -/
def andTail : List (SelExpr α) → List (SelTok α)
  | [] => []
  | u :: us => SelTok.andT :: printPrec 2 u ++ andTail us

/-- Tokens of the continuation of an `or` chain. -/
def orTail : List (SelExpr α) → List (SelTok α)
  | [] => []
  | u :: us => SelTok.orT :: printPrec 1 u ++ orTail us

/-- Whether a token list starts with `and`. -/
def headIsAnd : List (SelTok α) → Bool
  | SelTok.andT :: _ => true
  | _ => false

/-- Whether a token list starts with `or`. -/
def headIsOr : List (SelTok α) → Bool
  | SelTok.orT :: _ => true
  | _ => false

/-- Size measure for the induction over selector expressions. -/
def selSize : SelExpr α → Nat
  | .atomE _ => 1
  | .notE e => selSize e + 1
  | .andE a b => selSize a + selSize b + 1
  | .orE a b => selSize a + selSize b + 1

/-! ## Definitions: group-constraint dispatch in
`generate_constraints_from_configs` (`schedulomicon/io.py`)

Each `group_constraints` entry is rendered by whether it carries a
`kind` key (`Option String`). The loop first raises `YAMLParseError`
when `'kind' not in cst`; it then dispatches on the kind value through
an `if/elif` chain over the four recognized kinds — with no `else`
branch, so an entry with an unrecognized kind value contributes
nothing. -/

/-- The constraint kinds the `if/elif` chain recognizes. -/
inductive GroupCstTag where
  | allGroupCountPerResident
  | windowGroupCountPerResident
  | groupCoverageConstraint
  | timeToFirst
deriving DecidableEq

/-- Dispatch of a `kind` string, mirroring the `if/elif` chain of
`generate_constraints_from_configs`; `none` means no branch matches. -/
def groupCstKindTag (k : String) : Option GroupCstTag :=
  if k = "all_group_count_per_resident" then some .allGroupCountPerResident
  else if k = "window_group_count_per_resident" then
    some .windowGroupCountPerResident
  else if k = "group_coverage_constraint" then some .groupCoverageConstraint
  else if k = "time_to_first" then some .timeToFirst
  else none

/-- The `group_constraints` loop of `generate_constraints_from_configs`:
an entry without a `kind` key raises `YAMLParseError`; a recognized kind
appends its constraint; an unrecognized kind value falls through the
`if/elif` chain without an `else` and is skipped. -/
def processGroupConstraints :
    List (Option String) → Except String (List GroupCstTag)
  | [] => .ok []
  | none :: _ =>
    .error "All group_constraint definitions require a value for kind"
  | some k :: rest =>
    match processGroupConstraints rest with
    | .error e => .error e
    | .ok tags =>
      match groupCstKindTag k with
      | some tag => .ok (tag :: tags)
      | none => .ok tags

/-! ## Definitions: solution I/O (`schedulomicon/io.py`)

`write_solution` renders a `.csv` file with blocks as rows and residents
as columns — each cell the assigned rotation, `+`-suffixed when the
resident is backup — or pickles the whole solution for `.pkl`; any other
extension writes nothing. `read_solution` raises `NotImplementedError`
for `.csv` ("Hints are only supported with pickled solutions"),
unpickles `.pkl`/`.pickle`, and raises `UnacceptableFileType` otherwise.
-/

/-- `str.endswith(suffix)`, rendered over the character lists so that it
evaluates inside the kernel. -/
def strEndsWith (s suffix : String) : Bool :=
  suffix.data.isSuffixOf s.data

/-- A solution snapshot: entity orders plus the main-grid assignment and
the optional backup assignment (`'backup' in solution`). -/
structure Solution where
  residents : List String
  blocks : List String
  rotations : List String
  main : String → String → String → Bool
  backup : Option (String → String → Bool)

/-- Contents a solution file can hold: rendered CSV rows or a pickled
snapshot. -/
inductive FileContent where
  | csvText : List (List String) → FileContent
  | pickled : Solution → FileContent

/-- Errors `read_solution` can raise. -/
inductive ReadError where
  | notImplemented
  | unpickleFailure
  | unacceptableFileType
deriving DecidableEq

/-- One CSV cell of `write_solution`: the first rotation (in rotation
order) assigned to the resident on the block, with a `+` suffix when the
backup grid is present and marks the resident. -/
def solutionCell (sol : Solution) (res blk : String) : Option String :=
  match sol.rotations.find? (fun rot => sol.main res blk rot) with
  | some rot =>
    some (rot ++ (match sol.backup with
      | some b => if b res blk then "+" else ""
      | none => ""))
  | none => none

/-- The CSV table `write_solution` renders: blocks as rows, residents as
columns. -/
def renderSolutionCsv (sol : Solution) : List (List String) :=
  sol.blocks.map (fun blk =>
    sol.residents.map (fun res => (solutionCell sol res blk).getD ""))

/-- `write_solution`: render CSV for `.csv` names, pickle for `.pkl`
names, silently write nothing otherwise. -/
def writeSolution (fname : String) (sol : Solution) : Option FileContent :=
  if strEndsWith fname ".csv" then some (.csvText (renderSolutionCsv sol))
  else if strEndsWith fname ".pkl" then some (.pickled sol)
  else none

/-- `read_solution`: `.csv` raises `NotImplementedError` unconditionally;
`.pkl`/`.pickle` unpickles; anything else raises `UnacceptableFileType`. -/
def readSolution (fname : String) (content : FileContent) :
    Except ReadError Solution :=
  if strEndsWith fname ".csv" then .error .notImplemented
  else if strEndsWith fname ".pkl" || strEndsWith fname ".pickle" then
    match content with
    | .pickled s => .ok s
    | .csvText _ => .error .unpickleFailure
  else .error .unacceptableFileType

/-- Concrete solution used against the CSV round-trip claim. -/
def csvSolEx : Solution :=
  ⟨["R1"], ["B1"], ["Ro1"], fun _ _ _ => true, some (fun _ _ => true)⟩

/-! ## Definitions: `VacationMappingConstraint.from_yml_dict`
(`sched/cogrid_csts.py`)

The builder collects the per-pool caps, the week→blocks map and the
pool→rotations map from `config['vacation']`, then asserts — for each
rotation declared under `config['rotations']` — membership in
`rots_with_pool`, the concatenation of all pools' rotation lists, before
constructing the constraint object. -/

/-- One vacation pool of the config. -/
structure VacationPool where
  rotations : List String
  maxVacationPerWeek : Option Nat
  maxTotalVacation : Option Nat

/-- The `vacation` section of the config. -/
structure VacationConfig where
  pools : List (String × VacationPool)
  blocks : List (String × List String)
  nVacationsPerResident : Nat

/-- The parts of a config `VacationMappingConstraint.from_yml_dict`
reads. -/
structure SchedConfig where
  rotations : List String
  vacation : VacationConfig

/-- The constraint object built by
`VacationMappingConstraint.from_yml_dict` / `__init__`. -/
structure VacationMappingCst where
  nVacationsPerResident : Nat
  maxVacationPerWeek : List (String × Nat)
  maxTotalVacation : List (String × Nat)
  weekToBlocks : List (String × List String)
  poolToRotations : List (String × List String)

/-- The `assert r in rots_with_pool` loop: Python raises
`AssertionError` at the first uncovered rotation. -/
def checkRotsInPools : List String → List String → Except String Unit
  | [], _ => .ok ()
  | r :: rest, pool =>
    if r ∈ pool then checkRotsInPools rest pool
    else .error ("Rotation " ++ r ++ " not found in vacation")

/-- `rots_with_pool`, the concatenation (`itertools.chain`) of the
values of `pool_to_rotations`. -/
def rotsWithPool (pools : List (String × VacationPool)) : List String :=
  ((pools.map (fun p => (p.1, p.2.rotations))).map Prod.snd).flatten

/-- `VacationMappingConstraint.from_yml_dict`: collect caps and maps,
assert every configured rotation has a pool, then build the constraint. -/
def vacationMappingFromYml (config : SchedConfig) :
    Except String VacationMappingCst :=
  match checkRotsInPools config.rotations
      (rotsWithPool config.vacation.pools) with
  | .error e => .error e
  | .ok _ => .ok
      ⟨config.vacation.nVacationsPerResident,
       config.vacation.pools.filterMap (fun p =>
         match p.2.maxVacationPerWeek with
         | some v => some (p.1, v)
         | none => none),
       config.vacation.pools.filterMap (fun p =>
         match p.2.maxTotalVacation with
         | some v => some (p.1, v)
         | none => none),
       config.vacation.blocks,
       config.vacation.pools.map (fun p => (p.1, p.2.rotations))⟩

/-! ## Theorems -/

/-- A list summing the indicator of `p` equals counting by `p`. -/
theorem sum_map_toNat_eq_countP (l : List α) (p : α → Bool) :
    (l.map (fun a => (p a).toNat)).sum = l.countP p := by
  induction l with
  | nil => rfl
  | cons a t ih =>
    simp only [List.map_cons, List.sum_cons, List.countP_cons, ih]
    cases h : p a
    · simp [h]
    · simp [h, Nat.add_comm]

/-- If exactly one element of `l` satisfies `p`, there is a unique such
element. -/
theorem exists_unique_of_countP_eq_one (l : List α) (p : α → Bool)
    (h : l.countP p = 1) :
    ∃ a ∈ l, p a = true ∧ ∀ b ∈ l, p b = true → b = a := by
  induction l with
  | nil => simp at h
  | cons a t ih =>
    cases hpa : p a with
    | true =>
      have ht : t.countP p = 0 := by
        rw [List.countP_cons, hpa] at h; simpa using h
      have hnone : ∀ b ∈ t, ¬ p b = true := by
        rw [← List.countP_eq_zero]; exact ht
      refine ⟨a, List.mem_cons_self a t, hpa, ?_⟩
      intro b hb hpb
      rcases List.mem_cons.mp hb with hba | hbt
      · exact hba
      · exact absurd hpb (hnone b hbt)
    | false =>
      have ht : t.countP p = 1 := by
        rw [List.countP_cons, hpa] at h; simpa using h
      obtain ⟨c, hct, hpc, huniq⟩ := ih ht
      refine ⟨c, List.mem_cons_of_mem a hct, hpc, ?_⟩
      intro b hb hpb
      rcases List.mem_cons.mp hb with hba | hbt
      · rw [hba] at hpb; rw [hpb] at hpa; cases hpa
      · exact huniq b hbt hpb

/-- If at most one element of `l` satisfies `p`, any two satisfying
elements coincide. -/
theorem eq_of_countP_le_one (l : List α) (p : α → Bool)
    (h : l.countP p ≤ 1) :
    ∀ b₁ ∈ l, ∀ b₂ ∈ l, p b₁ = true → p b₂ = true → b₁ = b₂ := by
  induction l with
  | nil => intro b₁ hb₁; cases hb₁
  | cons a t ih =>
    intro b₁ hb₁ b₂ hb₂ hp₁ hp₂
    cases hpa : p a with
    | true =>
      have ht : t.countP p = 0 := by
        rw [List.countP_cons, hpa, if_pos rfl] at h; omega
      have hnone : ∀ b ∈ t, ¬ p b = true := by
        rw [← List.countP_eq_zero]; exact ht
      rcases List.mem_cons.mp hb₁ with h₁ | h₁
      · rcases List.mem_cons.mp hb₂ with h₂ | h₂
        · rw [h₁, h₂]
        · exact absurd hp₂ (hnone b₂ h₂)
      · exact absurd hp₁ (hnone b₁ h₁)
    | false =>
      have ht : t.countP p ≤ 1 := by
        rw [List.countP_cons, hpa] at h; simpa using h
      rcases List.mem_cons.mp hb₁ with h₁ | h₁
      · rw [h₁] at hp₁; rw [hp₁] at hpa; cases hpa
      · rcases List.mem_cons.mp hb₂ with h₂ | h₂
        · rw [h₂] at hp₂; rw [hp₂] at hpa; cases hpa
        · exact ih ht b₁ h₁ b₂ h₂ hp₁ hp₂

/-- C1: every compiled model imposes the structural invariants
unconditionally: for every `(resident, block)` pair exactly one main-grid
rotation variable is true; whenever the backup grid is built, each
resident's total backup count over blocks equals the config-supplied `K`;
and whenever the vacation grid is built, for every `(resident, week)` pair
at most one vacation variable is true. -/
theorem structural_invariants_hold
    (residents blocks rotations weeks : List String) (K : Nat)
    (x : String → String → String → Bool)
    (y : String → String → Bool)
    (v : String → String → String → Bool)
    (hmain : mainGridCsts residents blocks rotations x)
    (hbackup : backupGridCsts residents blocks K y)
    (hvacation : vacationGridCsts residents weeks rotations v) :
    (∀ res ∈ residents, ∀ blk ∈ blocks,
      ∃ rot ∈ rotations, x res blk rot = true ∧
        ∀ rot' ∈ rotations, x res blk rot' = true → rot' = rot) ∧
    (∀ res ∈ residents, blocks.countP (fun blk => y res blk) = K) ∧
    (∀ res ∈ residents, ∀ week ∈ weeks,
      ∀ t₁ ∈ rotations, ∀ t₂ ∈ rotations,
        v res week t₁ = true → v res week t₂ = true → t₁ = t₂) := by
  refine ⟨?_, ?_, ?_⟩
  · intro res hres blk hblk
    exact exists_unique_of_countP_eq_one rotations _ (hmain res hres blk hblk)
  · intro res hres
    rw [← sum_map_toNat_eq_countP]
    exact hbackup res hres
  · intro res hres week hweek
    have h := hvacation week hweek res hres
    rw [sum_map_toNat_eq_countP] at h
    exact eq_of_countP_le_one rotations _ h

/-- Concrete instantiation of `structural_invariants_hold`: one resident,
one block, two rotations, one vacation week, backup count 1. -/
theorem structural_invariants_hold_witness :
    (∀ res ∈ ["R1"], ∀ blk ∈ ["B1"],
      ∃ rot ∈ ["Ro1", "Ro2"],
        (fun (_ _ rot' : String) => rot' == "Ro1") res blk rot = true ∧
        ∀ rot' ∈ ["Ro1", "Ro2"],
          (fun (_ _ rot'' : String) => rot'' == "Ro1") res blk rot' = true →
            rot' = rot) ∧
    (∀ res ∈ ["R1"],
      List.countP (fun blk => (fun (_ _ : String) => true) res blk) ["B1"] = 1) ∧
    (∀ res ∈ ["R1"], ∀ week ∈ ["W1"],
      ∀ t₁ ∈ ["Ro1", "Ro2"], ∀ t₂ ∈ ["Ro1", "Ro2"],
        (fun (_ _ _ : String) => false) res week t₁ = true →
        (fun (_ _ _ : String) => false) res week t₂ = true → t₁ = t₂) :=
  structural_invariants_hold ["R1"] ["B1"] ["Ro1", "Ro2"] ["W1"] 1
    (fun _ _ rot => rot == "Ro1") (fun _ _ => true) (fun _ _ _ => false)
    (by unfold mainGridCsts; decide)
    (by unfold backupGridCsts; decide)
    (by unfold vacationGridCsts; decide)

/-- `runLenFrom` is `n` when the next `n` entries hold, at least `n`
entries are in range, and the entry after them (when in range) fails. -/
theorem runLenFrom_eq (x : Nat → Bool) (n : Nat) :
    ∀ i rem, n ≤ rem → (∀ j, j < n → x (i + j) = true) →
      (n < rem → x (i + n) = false) → runLenFrom x i rem = n := by
  induction n with
  | zero =>
    intro i rem _ _ hafter
    cases rem with
    | zero => rfl
    | succ rem' =>
      have hx : x i = false := by simpa using hafter (Nat.succ_pos rem')
      simp [runLenFrom, hx]
  | succ n ih =>
    intro i rem hrem hrun hafter
    cases rem with
    | zero => omega
    | succ rem' =>
      have hx : x i = true := by simpa using hrun 0 (Nat.succ_pos n)
      have hrec : runLenFrom x (i + 1) rem' = n := by
        refine ih (i + 1) rem' (by omega) ?_ ?_
        · intro j hj
          have := hrun (j + 1) (by omega)
          simpa [Nat.add_assoc, Nat.add_comm 1 j] using this
        · intro hlt
          have := hafter (by omega)
          simpa [Nat.add_assoc, Nat.add_comm 1 n] using this
      simp [runLenFrom, hx, hrec]

/-- In any assignment satisfying the consecutive-count constraints, the
`is_root` Boolean is true at every maximal-run start. -/
theorem isRoot_of_runStart (m n : Nat) (forbidden allowed : List Nat)
    (x r : Nat → Bool) (h : consecCsts m n forbidden allowed x r)
    (i : Nat) (him : i < m) (hrun : runStart x i) : r i = true := by
  obtain ⟨hx, hprev⟩ := hrun
  obtain ⟨hball, -⟩ := h
  obtain ⟨-, -, hzero, hpos, -, -, -⟩ := hball i him
  rcases hprev with rfl | hfalse
  · rw [← hzero rfl, hx]
  · by_cases hi : i = 0
    · subst hi; rw [← hzero rfl]; exact hx
    · cases hr : r i with
      | true => rfl
      | false =>
        rcases (hpos hi).2 hr with hcontra | hcontra
        · rw [hfalse] at hcontra; cases hcontra
        · rw [hx] at hcontra; cases hcontra

/-- C2 (amended): for every assignment satisfying the constraints of
`ConsecutiveCount(rot, n)` for a resident, every maximal run of
consecutive blocks assigned to `rot` has length exactly `n`, the run's
first block is not in `forbidden_roots`, and no run begins at a 0-based
position `i` with `i > |B| − n`; moreover every block of `allowed_roots`
that is not in `forbidden_roots` is forced to start a run. (The original
claim's clause that runs may only start inside a non-empty
`allowed_roots` does not hold: the code pins `is_root` to 1 on allowed
blocks but never pins it to 0 elsewhere.) -/
theorem consecutive_count_correct (m n : Nat) (forbidden allowed : List Nat)
    (x r : Nat → Bool) (hn : 2 ≤ n)
    (h : consecCsts m n forbidden allowed x r) :
    (∀ i, i < m → runStart x i →
      i ∉ forbidden ∧ i + n ≤ m ∧ runLen x m i = n) ∧
    (∀ i, i < m → i ∉ forbidden → i ∈ allowed → runStart x i) := by
  constructor
  · intro i him hrun
    have hroot : r i = true := isRoot_of_runStart m n forbidden allowed x r h i him hrun
    obtain ⟨hball, -⟩ := h
    obtain ⟨hforb, -, -, -, hcap, hafter, hrest⟩ := hball i him
    have hnotf : i ∉ forbidden := by
      intro hmem
      rw [hforb hmem] at hroot; cases hroot
    have hcap' : i + n ≤ m := by
      by_contra hlt
      rw [hcap (by omega)] at hroot; cases hroot
    have hall : ∀ j, j < n → x (i + j) = true := by
      intro j hj
      cases j with
      | zero => simpa using hrun.1
      | succ j' => exact hrest hcap' hroot (j' + 1) hj (by omega)
    refine ⟨hnotf, hcap', ?_⟩
    unfold runLen
    exact runLenFrom_eq x n i (m - i) (by omega) hall
      (fun hlt => hafter hcap' hroot (by omega))
  · intro i him hnotf hmem
    obtain ⟨hball, -⟩ := h
    obtain ⟨-, hallow, hzero, hpos, -, -, -⟩ := hball i him
    have hroot : r i = true := hallow hnotf hmem
    by_cases hi : i = 0
    · subst hi
      exact ⟨by rw [hzero rfl, hroot], Or.inl rfl⟩
    · obtain ⟨hprev, hcur⟩ := (hpos hi).1 hroot
      exact ⟨hcur, Or.inr hprev⟩

/-- Concrete instantiation of `consecutive_count_correct`: 4 blocks,
`n = 2`, block 0 forbidden; schedule with a single run at blocks 1–2. -/
theorem consecutive_count_correct_witness :
    (∀ i, i < 4 → runStart (fun k => decide (k ∈ [1, 2])) i →
      i ∉ [0] ∧ i + 2 ≤ 4 ∧ runLen (fun k => decide (k ∈ [1, 2])) 4 i = 2) ∧
    (∀ i, i < 4 → i ∉ [0] → i ∈ ([] : List Nat) →
      runStart (fun k => decide (k ∈ [1, 2])) i) :=
  consecutive_count_correct 4 2 [0] [] (fun k => decide (k ∈ [1, 2]))
    (fun k => decide (k = 1)) (by decide) (by decide)

/-- C2 counterexample to the claim as stated: with 5 blocks, `n = 2`, no
forbidden roots and `allowed_roots = [3]`, the schedule carrying the
rotation on blocks 0,1,3,4 (with the matching `is_root` assignment)
satisfies every constraint the code posts, yet the maximal run starting
at block 0 does not start in `allowed_roots`. -/
theorem consecutive_count_allowed_roots_counterexample :
    consecCsts 5 2 [] [3] consecXex consecRex ∧
    runStart consecXex 0 ∧ 0 ∉ [3] := by
  refine ⟨by decide, by decide, by decide⟩

/-- Summing a pointwise addition distributes over the two summands. -/
theorem list_sum_map_add [AddCommMonoid M] (l : List β) (f g : β → M) :
    (l.map (fun b => f b + g b)).sum = (l.map f).sum + (l.map g).sum := by
  induction l with
  | nil => simp
  | cons a t ih =>
    simp only [List.map_cons, List.sum_cons, ih]
    rw [add_add_add_comm]

/-- Nested sums over two lists commute. -/
theorem list_sum_comm [AddCommMonoid M] (l₁ : List α) (l₂ : List β)
    (f : α → β → M) :
    (l₁.map (fun a => (l₂.map (fun b => f a b)).sum)).sum
      = (l₂.map (fun b => (l₁.map (fun a => f a b)).sum)).sum := by
  induction l₁ with
  | nil =>
    symm
    rw [List.map_nil, List.sum_nil, List.sum_eq_zero]
    intro y hy
    obtain ⟨b, -, rfl⟩ := List.mem_map.mp hy
    simp
  | cons a t ih =>
    simp only [List.map_cons, List.sum_cons, ih]
    rw [list_sum_map_add]

/-- C4: for every solution of a model compiled with
`Prerequisite(rot, prereq_counts)` holding several prerequisite groups,
whenever a resident is assigned `rot` at block `b_i`, then for every
prerequisite group `g` with required count `k`, the resident's prior
count for `g` plus the number of assignments to rotations of `g` over
blocks before `b_i` is at least `k` — all groups are enforced
conjunctively, because `cst_spec_list` accumulates one entry per group
before `_apply_csts` runs. -/
theorem prerequisite_all_groups_enforced
    (rotation : String) (prereqs : List (List String × Nat))
    (priors : Option (String → String → Nat))
    (residents blocks : List String)
    (x : String → String → String → Bool)
    (h : prereqCsts rotation prereqs priors residents blocks x) :
    ∀ res ∈ residents, ∀ i, i < blocks.length →
      x res (blocks.getD i "") rotation = true →
      ∀ gk ∈ prereqs,
        (gk.1.map (fun p => priorOf priors p res)).sum +
          ((blocks.take i).map (fun blk =>
            gk.1.countP (fun p => x res blk p))).sum ≥ gk.2 := by
  intro res hres i hi hx gk hgk
  have hspec := h res hres i hi
    (prereqInstances priors x res blocks i gk.1, gk.2)
    (List.mem_map.mpr ⟨gk, hgk, rfl⟩) hx
  have heq : prereqInstances priors x res blocks i gk.1 =
      (gk.1.map (fun p => priorOf priors p res)).sum +
        ((blocks.take i).map (fun blk =>
          gk.1.countP (fun p => x res blk p))).sum := by
    unfold prereqInstances
    rw [list_sum_map_add, list_sum_comm]
    simp only [sum_map_toNat_eq_countP]
  rw [heq] at hspec
  exact hspec

/-- Concrete instantiation of `prerequisite_all_groups_enforced`: two
prerequisite groups, both satisfied before the rotation at block `B2`. -/
theorem prerequisite_all_groups_enforced_witness :
    ((["A"].map (fun p => priorOf none p "R1")).sum +
      ((["B1", "B2"].take 1).map (fun blk =>
        ["A"].countP (fun p => prereqXex "R1" blk p))).sum ≥ 1) ∧
    ((["B"].map (fun p => priorOf none p "R1")).sum +
      ((["B1", "B2"].take 1).map (fun blk =>
        ["B"].countP (fun p => prereqXex "R1" blk p))).sum ≥ 1) :=
  ⟨prerequisite_all_groups_enforced "Ro9" [(["A"], 1), (["B"], 1)] none
      ["R1"] ["B1", "B2"] prereqXex
      (by unfold prereqCsts prereqCstSpecList prereqInstances priorOf; decide)
      "R1" (by decide) 1 (by decide) (by decide) (["A"], 1) (by decide),
   prerequisite_all_groups_enforced "Ro9" [(["A"], 1), (["B"], 1)] none
      ["R1"] ["B1", "B2"] prereqXex
      (by unfold prereqCsts prereqCstSpecList prereqInstances priorOf; decide)
      "R1" (by decide) 1 (by decide) (by decide) (["B"], 1) (by decide)⟩

/-- C3: the code posts `model.Add(count > 1)` for `TimeToFirst`, so an
assignment whose group count over the window is exactly 1 — which both
the claim and the constraint's own docstring ("must be assigned to at
least one rotation from a specified group") accept — violates the
posted constraints. -/
theorem time_to_first_rejects_single_occurrence :
    ¬ timeToFirstCsts ["Ro1"] 2 ["R1"] ["B1", "B2"] ttfXex ∧
    ttfWindowCount ["Ro1"] 2 ["B1", "B2"] "R1" ttfXex = 1 := by
  constructor
  · unfold timeToFirstCsts ttfWindowCount ttfXex
    decide
  · rfl

/-- C6: for every model compiled with
`MinIndividualScore(scores, threshold)` and every resident, a solution
is feasible only if the resident's linear score
`U_r = Σ_{b,t} scores[r,b,t]·x[r,b,t]` is strictly less than the
threshold: the constraint is a strict upper bound despite the "Min"
name. -/
theorem min_individual_score_strict_upper_bound
    (scores : String → String → String → Int) (minScore : Int)
    (residents blocks rotations : List String)
    (x : String → String → String → Bool)
    (h : minIndividualScoreCsts scores minScore residents blocks rotations x) :
    ∀ res ∈ residents,
      (blocks.map (fun blk =>
        ((rotations.map (fun rot =>
          scores res blk rot * ((x res blk rot).toNat : Int))).sum))).sum
        < minScore := by
  intro res hres
  have hr := h res hres
  unfold resObj at hr
  rwa [list_sum_comm] at hr

/-- Concrete instantiation of `min_individual_score_strict_upper_bound`. -/
theorem min_individual_score_strict_upper_bound_witness :
    (["B1"].map (fun blk =>
      ((["Ro1"].map (fun rot =>
        (fun (_ _ _ : String) => (2 : Int)) "R1" blk rot *
          (((fun (_ _ _ : String) => true) "R1" blk rot).toNat : Int))).sum))).sum
      < 3 :=
  have h := min_individual_score_strict_upper_bound
    (fun _ _ _ => (2 : Int)) 3 ["R1"] ["B1"] ["Ro1"]
    (fun _ _ _ => true)
    (by unfold minIndividualScoreCsts resObj; decide)
  h "R1" (by decide)

/-- C9: applying `AllowedRootsConstraint` never restricts the main grid:
the `is_root` Booleans it creates are pinned to constants and no posted
constraint links them to any main-grid variable, so for every property
`P` of main-grid assignments (standing for the rest of the model), an
assignment is feasible with the constraint applied iff it is feasible
without it. -/
theorem allowed_roots_does_not_restrict_main_grid
    (P : (String → String → String → Bool) → Prop)
    (residents blocks allowedRoots : List String)
    (x : String → String → String → Bool) :
    (P x ∧ ∃ isRoot, allowedRootsCsts residents blocks allowedRoots isRoot)
      ↔ P x := by
  constructor
  · exact fun h => h.1
  · intro hp
    refine ⟨hp, fun _ i => decide (blocks.getD i "" ∈ allowedRoots), ?_⟩
    intro res hres i hi
    constructor
    · intro hmem; exact decide_eq_true hmem
    · intro hmem; exact decide_eq_false hmem

/-- `selSize` is positive. -/
theorem selSize_pos (e : SelExpr α) : 1 ≤ selSize e := by
  cases e <;> simp [selSize]

/-- `andTail` over a snoc appends one `and` segment. -/
theorem andTail_append (us : List (SelExpr α)) (b : SelExpr α) :
    andTail (us ++ [b]) = andTail us ++ SelTok.andT :: printPrec 2 b := by
  induction us with
  | nil => simp [andTail]
  | cons u t ih => simp [andTail, ih]

/-- `orTail` over a snoc appends one `or` segment. -/
theorem orTail_append (us : List (SelExpr α)) (b : SelExpr α) :
    orTail (us ++ [b]) = orTail us ++ SelTok.orT :: printPrec 1 b := by
  induction us with
  | nil => simp [orTail]
  | cons u t ih => simp [orTail, ih]

/-- The `and`-level print of an expression is its spine head's
`not`-level print followed by the chain tail. -/
theorem print1_spine (e : SelExpr α) :
    printPrec 1 e =
      printPrec 2 (andSpineH e).1 ++ andTail (andSpineH e).2 := by
  induction e with
  | atomE m => simp [printPrec, andSpineH, andTail]
  | notE e' ih => simp [printPrec, andSpineH, andTail]
  | andE a b iha ihb =>
    simp only [andSpineH]
    rw [andTail_append]
    show printPrec 1 (SelExpr.andE a b) = _
    simp only [printPrec, if_pos (by omega : (1 : Nat) ≤ 1)]
    rw [iha]
    simp
  | orE a b iha ihb =>
    simp [printPrec, andSpineH, andTail]

/-- The `or`-level print of an expression is its spine head's
`and`-level print followed by the chain tail. -/
theorem print0_spine (e : SelExpr α) :
    printPrec 0 e =
      printPrec 1 (orSpineH e).1 ++ orTail (orSpineH e).2 := by
  induction e with
  | atomE m => simp [printPrec, orSpineH, orTail]
  | notE e' ih => simp [printPrec, orSpineH, orTail]
  | andE a b iha ihb =>
    have h1 : printPrec 0 (SelExpr.andE a b) = printPrec 1 (SelExpr.andE a b) := by
      simp [printPrec]
    simp [h1, orSpineH, orTail]
  | orE a b iha ihb =>
    simp only [orSpineH]
    rw [orTail_append]
    show printPrec 0 (SelExpr.orE a b) = _
    simp only [printPrec, if_pos rfl]
    rw [iha]
    simp

/-- At level 2 an `and` node is printed inside parentheses around its
level-0 print. -/
theorem print2_parens_and (a b : SelExpr α) :
    printPrec 2 (SelExpr.andE a b) =
      SelTok.lparT :: printPrec 0 (SelExpr.andE a b) ++ [SelTok.rparT] := by
  simp [printPrec]

/-- At level 2 an `or` node is printed inside parentheses around its
level-0 print. -/
theorem print2_parens_or (a b : SelExpr α) :
    printPrec 2 (SelExpr.orE a b) =
      SelTok.lparT :: printPrec 0 (SelExpr.orE a b) ++ [SelTok.rparT] := by
  simp [printPrec]

/-- Spine heads do not grow. -/
theorem andSpineH_head_size (e : SelExpr α) :
    selSize (andSpineH e).1 ≤ selSize e := by
  induction e with
  | atomE m => simp [andSpineH]
  | notE e' ih => simp [andSpineH]
  | andE a b iha ihb => simp only [andSpineH, selSize]; omega
  | orE a b iha ihb => simp [andSpineH]

/-- Spine tails are strictly smaller. -/
theorem andSpineH_tail_size (e : SelExpr α) :
    ∀ u ∈ (andSpineH e).2, selSize u < selSize e := by
  induction e with
  | atomE m => simp [andSpineH]
  | notE e' ih => simp [andSpineH]
  | andE a b iha ihb =>
    intro u hu
    simp only [andSpineH] at hu
    rcases List.mem_append.mp hu with h | h
    · have := iha u h
      simp only [selSize]; omega
    · rcases List.mem_singleton.mp h with rfl
      simp only [selSize]; omega
  | orE a b iha ihb => simp [andSpineH]

/-- Or-spine heads do not grow. -/
theorem orSpineH_head_size (e : SelExpr α) :
    selSize (orSpineH e).1 ≤ selSize e := by
  induction e with
  | atomE m => simp [orSpineH]
  | notE e' ih => simp [orSpineH]
  | andE a b iha ihb => simp [orSpineH]
  | orE a b iha ihb => simp only [orSpineH, selSize]; omega

/-- Or-spine tails are strictly smaller. -/
theorem orSpineH_tail_size (e : SelExpr α) :
    ∀ u ∈ (orSpineH e).2, selSize u < selSize e := by
  induction e with
  | atomE m => simp [orSpineH]
  | notE e' ih => simp [orSpineH]
  | andE a b iha ihb => simp [orSpineH]
  | orE a b iha ihb =>
    intro u hu
    simp only [orSpineH] at hu
    rcases List.mem_append.mp hu with h | h
    · have := iha u h
      simp only [selSize]; omega
    · rcases List.mem_singleton.mp h with rfl
      simp only [selSize]; omega

/-- Folding `&&` along the and-spine recovers the denotation. -/
theorem andSpineH_eval (e : SelExpr α) (idx : α) :
    ((andSpineH e).2).foldl (fun bl u => bl && u.eval idx)
      ((andSpineH e).1.eval idx) = e.eval idx := by
  induction e with
  | atomE m => simp [andSpineH]
  | notE e' ih => simp [andSpineH]
  | andE a b iha ihb =>
    simp only [andSpineH, List.foldl_append, List.foldl_cons, List.foldl_nil]
    rw [iha]
    rfl
  | orE a b iha ihb => simp [andSpineH]

/-- Folding `||` along the or-spine recovers the denotation. -/
theorem orSpineH_eval (e : SelExpr α) (idx : α) :
    ((orSpineH e).2).foldl (fun bl u => bl || u.eval idx)
      ((orSpineH e).1.eval idx) = e.eval idx := by
  induction e with
  | atomE m => simp [orSpineH]
  | notE e' ih => simp [orSpineH]
  | andE a b iha ihb => simp [orSpineH]
  | orE a b iha ihb =>
    simp only [orSpineH, List.foldl_append, List.foldl_cons, List.foldl_nil]
    rw [iha]
    rfl

/-- Applying a fold of pointwise `&&` at an index is the fold of
the Booleans at that index. -/
theorem foldl_maskAnd_apply (ops : List (α → Bool)) :
    ∀ (a : α → Bool) (idx : α),
      (ops.foldl (fun acc o => fun i => acc i && o i) a) idx =
        ops.foldl (fun bl o => bl && o idx) (a idx) := by
  induction ops with
  | nil => intro a idx; rfl
  | cons o t ih => intro a idx; simp only [List.foldl_cons]; rw [ih]

/-- Applying a fold of pointwise `||` at an index is the fold of
the Booleans at that index. -/
theorem foldl_maskOr_apply (ops : List (α → Bool)) :
    ∀ (a : α → Bool) (idx : α),
      (ops.foldl (fun acc o => fun i => acc i || o i) a) idx =
        ops.foldl (fun bl o => bl || o idx) (a idx) := by
  induction ops with
  | nil => intro a idx; rfl
  | cons o t ih => intro a idx; simp only [List.foldl_cons]; rw [ih]

/-- The duplicated head of `_and_parse_action`'s fold is harmless:
pointwise, the action computes the plain fold. -/
theorem pyAndAction_apply (m : α → Bool) (ms : List (α → Bool)) (idx : α) :
    pyAndAction (m :: ms) idx =
      ms.foldl (fun bl o => bl && o idx) (m idx) := by
  show ((m :: ms).foldl (fun acc o => fun i => acc i && o i) m) idx = _
  simp only [List.foldl_cons]
  rw [foldl_maskAnd_apply]
  simp

/-- Same for `_or_parse_action`. -/
theorem pyOrAction_apply (m : α → Bool) (ms : List (α → Bool)) (idx : α) :
    pyOrAction (m :: ms) idx =
      ms.foldl (fun bl o => bl || o idx) (m idx) := by
  show ((m :: ms).foldl (fun acc o => fun i => acc i || o i) m) idx = _
  simp only [List.foldl_cons]
  rw [foldl_maskOr_apply]
  simp

/-- The mask `parseAndL` assembles for a chain equals the denotation. -/
theorem andChainMask_eq (e : SelExpr α) :
    (if (((andSpineH e).2).map evalMask).isEmpty then
      evalMask (andSpineH e).1
    else pyAndAction (evalMask (andSpineH e).1 ::
      ((andSpineH e).2).map evalMask)) = evalMask e := by
  cases ht : (andSpineH e).2 with
  | nil =>
    simp only [ht, List.map_nil, List.isEmpty_nil, if_pos rfl]
    funext idx
    have := andSpineH_eval e idx
    rw [ht] at this
    simpa [evalMask] using this
  | cons u t =>
    rw [if_neg (by simp)]
    funext idx
    rw [show (evalMask (andSpineH e).1 :: List.map evalMask (u :: t)) =
      evalMask (andSpineH e).1 :: evalMask u :: List.map evalMask t from by simp]
    rw [pyAndAction_apply]
    rw [show (evalMask u :: List.map evalMask t) =
      List.map evalMask (u :: t) from rfl]
    rw [List.foldl_map]
    have hev := andSpineH_eval e idx
    rw [ht] at hev
    exact hev

/-- The mask `parseOrL` assembles for a chain equals the denotation. -/
theorem orChainMask_eq (e : SelExpr α) :
    (if (((orSpineH e).2).map evalMask).isEmpty then
      evalMask (orSpineH e).1
    else pyOrAction (evalMask (orSpineH e).1 ::
      ((orSpineH e).2).map evalMask)) = evalMask e := by
  cases ht : (orSpineH e).2 with
  | nil =>
    simp only [ht, List.map_nil, List.isEmpty_nil, if_pos rfl]
    funext idx
    have := orSpineH_eval e idx
    rw [ht] at this
    simpa [evalMask] using this
  | cons u t =>
    rw [if_neg (by simp)]
    funext idx
    rw [show (evalMask (orSpineH e).1 :: List.map evalMask (u :: t)) =
      evalMask (orSpineH e).1 :: evalMask u :: List.map evalMask t from by simp]
    rw [pyOrAction_apply]
    rw [show (evalMask u :: List.map evalMask t) =
      List.map evalMask (u :: t) from rfl]
    rw [List.foldl_map]
    have hev := orSpineH_eval e idx
    rw [ht] at hev
    exact hev

/-- A token list starting with an `or`-chain tail never starts with
`and`. -/
theorem headIsAnd_orTail (us : List (SelExpr α)) (rest : List (SelTok α))
    (h : headIsAnd rest = false) :
    headIsAnd (orTail us ++ rest) = false := by
  cases us with
  | nil => simpa [orTail] using h
  | cons u t => simp [orTail, headIsAnd]

/-- The chain collector consumes a printed `and` tail and returns the
operand masks in order. -/
theorem parseAndRest_chain (us : List (SelExpr α))
    (hN : ∀ u ∈ us, ∀ (f : Nat) (rest : List (SelTok α)),
      4 * (printPrec 2 u).length + 1 ≤ f →
      parseNotL f (printPrec 2 u ++ rest) = some (evalMask u, rest)) :
    ∀ (f : Nat) (acc : List (α → Bool)) (rest : List (SelTok α)),
      4 * (andTail us).length + 1 ≤ f → headIsAnd rest = false →
      parseAndRestL f (andTail us ++ rest) acc =
        some (acc ++ us.map evalMask, rest) := by
  induction us with
  | nil =>
    intro f acc rest hf hrest
    cases f with
    | zero => omega
    | succ f' =>
      simp only [andTail, List.nil_append, List.map_nil, List.append_nil]
      cases rest with
      | nil => rfl
      | cons t ts =>
        cases t with
        | andT => simp [headIsAnd] at hrest
        | atomT m => rfl
        | orT => rfl
        | notT => rfl
        | lparT => rfl
        | rparT => rfl
  | cons u t ih =>
    intro f acc rest hf hrest
    have hlen : (andTail (u :: t)).length =
        1 + (printPrec 2 u).length + (andTail t).length := by
      simp [andTail]; omega
    cases f with
    | zero => omega
    | succ f' =>
      have htoks : andTail (u :: t) ++ rest =
          SelTok.andT :: (printPrec 2 u ++ (andTail t ++ rest)) := by
        simp [andTail]
      rw [htoks]
      show parseAndRestL (f' + 1)
        (SelTok.andT :: (printPrec 2 u ++ (andTail t ++ rest))) acc = _
      rw [parseAndRestL]
      rw [hN u (List.mem_cons_self u t) f' (andTail t ++ rest) (by omega)]
      show parseAndRestL f' (andTail t ++ rest) (acc ++ [evalMask u]) = _
      rw [ih (fun v hv => hN v (List.mem_cons_of_mem u hv)) f'
        (acc ++ [evalMask u]) rest (by omega) hrest]
      simp

/-- The chain collector consumes a printed `or` tail and returns the
operand masks in order. -/
theorem parseOrRest_chain (us : List (SelExpr α))
    (hA : ∀ u ∈ us, ∀ (f : Nat) (rest : List (SelTok α)),
      4 * (printPrec 1 u).length + 2 ≤ f → headIsAnd rest = false →
      parseAndL f (printPrec 1 u ++ rest) = some (evalMask u, rest)) :
    ∀ (f : Nat) (acc : List (α → Bool)) (rest : List (SelTok α)),
      4 * (orTail us).length + 1 ≤ f → headIsAnd rest = false →
      headIsOr rest = false →
      parseOrRestL f (orTail us ++ rest) acc =
        some (acc ++ us.map evalMask, rest) := by
  induction us with
  | nil =>
    intro f acc rest hf hrestA hrestO
    cases f with
    | zero => omega
    | succ f' =>
      simp only [orTail, List.nil_append, List.map_nil, List.append_nil]
      cases rest with
      | nil => rfl
      | cons t ts =>
        cases t with
        | orT => simp [headIsOr] at hrestO
        | atomT m => rfl
        | andT => rfl
        | notT => rfl
        | lparT => rfl
        | rparT => rfl
  | cons u t ih =>
    intro f acc rest hf hrestA hrestO
    have hlen : (orTail (u :: t)).length =
        1 + (printPrec 1 u).length + (orTail t).length := by
      simp [orTail]; omega
    cases f with
    | zero => omega
    | succ f' =>
      have htoks : orTail (u :: t) ++ rest =
          SelTok.orT :: (printPrec 1 u ++ (orTail t ++ rest)) := by
        simp [orTail]
      rw [htoks]
      show parseOrRestL (f' + 1)
        (SelTok.orT :: (printPrec 1 u ++ (orTail t ++ rest))) acc = _
      rw [parseOrRestL]
      rw [hA u (List.mem_cons_self u t) f' (orTail t ++ rest) (by omega)
        (headIsAnd_orTail t rest hrestA)]
      show parseOrRestL f' (orTail t ++ rest) (acc ++ [evalMask u]) = _
      rw [ih (fun v hv => hA v (List.mem_cons_of_mem u hv)) f'
        (acc ++ [evalMask u]) rest (by omega) hrestA hrestO]
      simp

/-- One step of the `not` level on a `not` token. -/
theorem parseNotL_not_step (f : Nat) (ts : List (SelTok α)) (v : α → Bool)
    (rest : List (SelTok α)) (h : parseNotL f ts = some (v, rest)) :
    parseNotL (f + 1) (SelTok.notT :: ts) = some (maskNot v, rest) := by
  rw [parseNotL, h]

/-- One step of `parseAndL` when both sub-parses succeed. -/
theorem parseAndL_eq (f : Nat) (ts : List (SelTok α)) (v : α → Bool)
    (rest₁ : List (SelTok α)) (ops : List (α → Bool))
    (rest₂ : List (SelTok α))
    (h1 : parseNotL f ts = some (v, rest₁))
    (h2 : parseAndRestL f rest₁ [] = some (ops, rest₂)) :
    parseAndL (f + 1) ts =
      some (if ops.isEmpty then v else pyAndAction (v :: ops), rest₂) := by
  rw [parseAndL, h1]
  show (match parseAndRestL f rest₁ ([] : List (α → Bool)) with
    | some (ops, rest') =>
      some (if ops.isEmpty then v else pyAndAction (v :: ops), rest')
    | none => none) = _
  rw [h2]

/-- One step of `parseOrL` when both sub-parses succeed. -/
theorem parseOrL_eq (f : Nat) (ts : List (SelTok α)) (v : α → Bool)
    (rest₁ : List (SelTok α)) (ops : List (α → Bool))
    (rest₂ : List (SelTok α))
    (h1 : parseAndL f ts = some (v, rest₁))
    (h2 : parseOrRestL f rest₁ [] = some (ops, rest₂)) :
    parseOrL (f + 1) ts =
      some (if ops.isEmpty then v else pyOrAction (v :: ops), rest₂) := by
  rw [parseOrL, h1]
  show (match parseOrRestL f rest₁ ([] : List (α → Bool)) with
    | some (ops, rest') =>
      some (if ops.isEmpty then v else pyOrAction (v :: ops), rest')
    | none => none) = _
  rw [h2]

/-- The atom level accepts a parenthesized expression. -/
theorem parseAtomL_parens (f : Nat) (inner rest' : List (SelTok α))
    (v : α → Bool) (h : parseOrL f inner = some (v, SelTok.rparT :: rest')) :
    parseAtomL (f + 1) (SelTok.lparT :: inner) = some (v, rest') := by
  rw [parseAtomL, h]

/-- `parseAndL` parses a level-1 print: spine head then chain tail,
folded by the `and` action. -/
theorem parseAnd_of_spine (e : SelExpr α)
    (hNhead : ∀ (f : Nat) (rest : List (SelTok α)),
      4 * (printPrec 2 (andSpineH e).1).length + 1 ≤ f →
      parseNotL f (printPrec 2 (andSpineH e).1 ++ rest) =
        some (evalMask (andSpineH e).1, rest))
    (hNtail : ∀ u ∈ (andSpineH e).2, ∀ (f : Nat) (rest : List (SelTok α)),
      4 * (printPrec 2 u).length + 1 ≤ f →
      parseNotL f (printPrec 2 u ++ rest) = some (evalMask u, rest)) :
    ∀ (f : Nat) (rest : List (SelTok α)),
      4 * (printPrec 1 e).length + 2 ≤ f → headIsAnd rest = false →
      parseAndL f (printPrec 1 e ++ rest) = some (evalMask e, rest) := by
  intro f rest hf hrest
  have hlen : (printPrec 1 e).length =
      (printPrec 2 (andSpineH e).1).length + (andTail (andSpineH e).2).length := by
    rw [print1_spine e]; simp
  cases f with
  | zero => omega
  | succ f' =>
    rw [print1_spine e, List.append_assoc]
    have h1 := hNhead f' (andTail (andSpineH e).2 ++ rest) (by omega)
    have h2 := parseAndRest_chain (andSpineH e).2 hNtail f' [] rest
      (by omega) hrest
    rw [List.nil_append] at h2
    rw [parseAndL_eq f' _ _ _ _ _ h1 h2]
    rw [andChainMask_eq e]

/-- `parseOrL` parses a level-0 print: spine head then chain tail,
folded by the `or` action. -/
theorem parseOr_of_spine (e : SelExpr α)
    (hAhead : ∀ (f : Nat) (rest : List (SelTok α)),
      4 * (printPrec 1 (orSpineH e).1).length + 2 ≤ f →
      headIsAnd rest = false →
      parseAndL f (printPrec 1 (orSpineH e).1 ++ rest) =
        some (evalMask (orSpineH e).1, rest))
    (hAtail : ∀ u ∈ (orSpineH e).2, ∀ (f : Nat) (rest : List (SelTok α)),
      4 * (printPrec 1 u).length + 2 ≤ f → headIsAnd rest = false →
      parseAndL f (printPrec 1 u ++ rest) = some (evalMask u, rest)) :
    ∀ (f : Nat) (rest : List (SelTok α)),
      4 * (printPrec 0 e).length + 3 ≤ f → headIsAnd rest = false →
      headIsOr rest = false →
      parseOrL f (printPrec 0 e ++ rest) = some (evalMask e, rest) := by
  intro f rest hf hrestA hrestO
  have hlen : (printPrec 0 e).length =
      (printPrec 1 (orSpineH e).1).length + (orTail (orSpineH e).2).length := by
    rw [print0_spine e]; simp
  cases f with
  | zero => omega
  | succ f' =>
    rw [print0_spine e, List.append_assoc]
    have h1 := hAhead f' (orTail (orSpineH e).2 ++ rest) (by omega)
      (headIsAnd_orTail (orSpineH e).2 rest hrestA)
    have h2 := parseOrRest_chain (orSpineH e).2 hAtail f' [] rest
      (by omega) hrestA hrestO
    rw [List.nil_append] at h2
    rw [parseOrL_eq f' _ _ _ _ _ h1 h2]
    rw [orChainMask_eq e]

/-- `parseNotL` parses a parenthesized `and` node through the
`(`-branch of the atom level. -/
theorem parseNot_parens_and (a b : SelExpr α)
    (hA0 : ∀ (f : Nat) (rest : List (SelTok α)),
      4 * (printPrec 0 (SelExpr.andE a b)).length + 3 ≤ f →
      headIsAnd rest = false → headIsOr rest = false →
      parseOrL f (printPrec 0 (SelExpr.andE a b) ++ rest) =
        some (evalMask (SelExpr.andE a b), rest)) :
    ∀ (f : Nat) (rest : List (SelTok α)),
      4 * (printPrec 2 (SelExpr.andE a b)).length + 1 ≤ f →
      parseNotL f (printPrec 2 (SelExpr.andE a b) ++ rest) =
        some (evalMask (SelExpr.andE a b), rest) := by
  intro f rest hf
  have hlen : (printPrec 2 (SelExpr.andE a b)).length =
      (printPrec 0 (SelExpr.andE a b)).length + 2 := by
    rw [print2_parens_and]; simp
  cases f with
  | zero => omega
  | succ f' =>
    cases f' with
    | zero => omega
    | succ f'' =>
      rw [print2_parens_and]
      rw [show (SelTok.lparT :: printPrec 0 (SelExpr.andE a b) ++ [SelTok.rparT]) ++ rest
        = SelTok.lparT :: (printPrec 0 (SelExpr.andE a b) ++ (SelTok.rparT :: rest)) by simp]
      show parseNotL (f'' + 1 + 1)
        (SelTok.lparT :: (printPrec 0 (SelExpr.andE a b) ++ (SelTok.rparT :: rest))) = _
      rw [show parseNotL (f'' + 1 + 1)
          (SelTok.lparT :: (printPrec 0 (SelExpr.andE a b) ++ (SelTok.rparT :: rest)))
        = parseAtomL (f'' + 1)
          (SelTok.lparT :: (printPrec 0 (SelExpr.andE a b) ++ (SelTok.rparT :: rest))) from rfl]
      exact parseAtomL_parens f'' _ rest _
        (hA0 f'' (SelTok.rparT :: rest) (by omega) rfl rfl)

/-- `parseNotL` parses a parenthesized `or` node through the
`(`-branch of the atom level. -/
theorem parseNot_parens_or (a b : SelExpr α)
    (hA0 : ∀ (f : Nat) (rest : List (SelTok α)),
      4 * (printPrec 0 (SelExpr.orE a b)).length + 3 ≤ f →
      headIsAnd rest = false → headIsOr rest = false →
      parseOrL f (printPrec 0 (SelExpr.orE a b) ++ rest) =
        some (evalMask (SelExpr.orE a b), rest)) :
    ∀ (f : Nat) (rest : List (SelTok α)),
      4 * (printPrec 2 (SelExpr.orE a b)).length + 1 ≤ f →
      parseNotL f (printPrec 2 (SelExpr.orE a b) ++ rest) =
        some (evalMask (SelExpr.orE a b), rest) := by
  intro f rest hf
  have hlen : (printPrec 2 (SelExpr.orE a b)).length =
      (printPrec 0 (SelExpr.orE a b)).length + 2 := by
    rw [print2_parens_or]; simp
  cases f with
  | zero => omega
  | succ f' =>
    cases f' with
    | zero => omega
    | succ f'' =>
      rw [print2_parens_or]
      rw [show (SelTok.lparT :: printPrec 0 (SelExpr.orE a b) ++ [SelTok.rparT]) ++ rest
        = SelTok.lparT :: (printPrec 0 (SelExpr.orE a b) ++ (SelTok.rparT :: rest)) by simp]
      show parseNotL (f'' + 1 + 1)
        (SelTok.lparT :: (printPrec 0 (SelExpr.orE a b) ++ (SelTok.rparT :: rest))) = _
      rw [show parseNotL (f'' + 1 + 1)
          (SelTok.lparT :: (printPrec 0 (SelExpr.orE a b) ++ (SelTok.rparT :: rest)))
        = parseAtomL (f'' + 1)
          (SelTok.lparT :: (printPrec 0 (SelExpr.orE a b) ++ (SelTok.rparT :: rest))) from rfl]
      exact parseAtomL_parens f'' _ rest _
        (hA0 f'' (SelTok.rparT :: rest) (by omega) rfl rfl)

/-- Parsing is correct at every level for every expression of bounded
size: the `not` level consumes a level-2 print, the `and` level a
level-1 print, the `or` level a level-0 print, each returning the
elementwise denotation. -/
theorem parseLevels (n : Nat) : ∀ e : SelExpr α, selSize e ≤ n →
    (∀ (f : Nat) (rest : List (SelTok α)),
      4 * (printPrec 2 e).length + 1 ≤ f →
      parseNotL f (printPrec 2 e ++ rest) = some (evalMask e, rest)) ∧
    (∀ (f : Nat) (rest : List (SelTok α)),
      4 * (printPrec 1 e).length + 2 ≤ f → headIsAnd rest = false →
      parseAndL f (printPrec 1 e ++ rest) = some (evalMask e, rest)) ∧
    (∀ (f : Nat) (rest : List (SelTok α)),
      4 * (printPrec 0 e).length + 3 ≤ f → headIsAnd rest = false →
      headIsOr rest = false →
      parseOrL f (printPrec 0 e ++ rest) = some (evalMask e, rest)) := by
  induction n with
  | zero =>
    intro e he
    have := selSize_pos e
    omega
  | succ n ih =>
    intro e he
    cases e with
    | atomE m =>
      have hN : ∀ (f : Nat) (rest : List (SelTok α)),
          4 * (printPrec 2 (SelExpr.atomE m)).length + 1 ≤ f →
          parseNotL f (printPrec 2 (SelExpr.atomE m) ++ rest) =
            some (evalMask (SelExpr.atomE m), rest) := by
        intro f rest hf
        have h5 : 5 ≤ f := by
          simp only [printPrec, List.length_cons, List.length_nil] at hf
          omega
        cases f with
        | zero => omega
        | succ f' =>
          cases f' with
          | zero => omega
          | succ f'' =>
            show parseNotL (f'' + 1 + 1)
              (printPrec 2 (SelExpr.atomE m) ++ rest) = _
            rfl
      have hA1 : ∀ (f : Nat) (rest : List (SelTok α)),
          4 * (printPrec 1 (SelExpr.atomE m)).length + 2 ≤ f →
          headIsAnd rest = false →
          parseAndL f (printPrec 1 (SelExpr.atomE m) ++ rest) =
            some (evalMask (SelExpr.atomE m), rest) :=
        parseAnd_of_spine (SelExpr.atomE m) hN (by intro u hu; cases hu)
      refine ⟨hN, hA1, ?_⟩
      exact parseOr_of_spine (SelExpr.atomE m) hA1 (by intro u hu; cases hu)
    | notE e' =>
      have hsub : selSize e' ≤ n := by
        simp only [selSize] at he; omega
      obtain ⟨ihN, -, -⟩ := ih e' hsub
      have hN : ∀ (f : Nat) (rest : List (SelTok α)),
          4 * (printPrec 2 (SelExpr.notE e')).length + 1 ≤ f →
          parseNotL f (printPrec 2 (SelExpr.notE e') ++ rest) =
            some (evalMask (SelExpr.notE e'), rest) := by
        intro f rest hf
        have hlen : (printPrec 2 (SelExpr.notE e')).length =
            (printPrec 2 e').length + 1 := by
          simp [printPrec]
        cases f with
        | zero => omega
        | succ f' =>
          show parseNotL (f' + 1)
            (SelTok.notT :: (printPrec 2 e' ++ rest)) = _
          rw [parseNotL_not_step f' _ _ _ (ihN f' rest (by omega))]
          have hmk : maskNot (evalMask e') = evalMask (SelExpr.notE e') := by
            funext idx
            simp [maskNot, evalMask, SelExpr.eval]
          rw [hmk]
      have hA1 : ∀ (f : Nat) (rest : List (SelTok α)),
          4 * (printPrec 1 (SelExpr.notE e')).length + 2 ≤ f →
          headIsAnd rest = false →
          parseAndL f (printPrec 1 (SelExpr.notE e') ++ rest) =
            some (evalMask (SelExpr.notE e'), rest) :=
        parseAnd_of_spine (SelExpr.notE e') hN (by intro u hu; cases hu)
      refine ⟨hN, hA1, ?_⟩
      exact parseOr_of_spine (SelExpr.notE e') hA1 (by intro u hu; cases hu)
    | andE a b =>
      have hsa : selSize a ≤ n := by simp only [selSize] at he; omega
      have hsb : selSize b ≤ n := by simp only [selSize] at he; omega
      have hA1 : ∀ (f : Nat) (rest : List (SelTok α)),
          4 * (printPrec 1 (SelExpr.andE a b)).length + 2 ≤ f →
          headIsAnd rest = false →
          parseAndL f (printPrec 1 (SelExpr.andE a b) ++ rest) =
            some (evalMask (SelExpr.andE a b), rest) := by
        apply parseAnd_of_spine
        · have hhead : selSize (andSpineH (SelExpr.andE a b)).1 ≤ n := by
            have h1 := andSpineH_head_size a
            have : (andSpineH (SelExpr.andE a b)).1 = (andSpineH a).1 := by
              simp [andSpineH]
            rw [this]; omega
          exact (ih _ hhead).1
        · intro u hu
          have : selSize u ≤ n := by
            have := andSpineH_tail_size (SelExpr.andE a b) u hu
            simp only [selSize] at this he ⊢; omega
          exact (ih u this).1
      have hA0 : ∀ (f : Nat) (rest : List (SelTok α)),
          4 * (printPrec 0 (SelExpr.andE a b)).length + 3 ≤ f →
          headIsAnd rest = false → headIsOr rest = false →
          parseOrL f (printPrec 0 (SelExpr.andE a b) ++ rest) =
            some (evalMask (SelExpr.andE a b), rest) := by
        apply parseOr_of_spine
        · have : orSpineH (SelExpr.andE a b) = (SelExpr.andE a b, []) := by
            simp [orSpineH]
          rw [this]
          exact hA1
        · intro u hu
          have : orSpineH (SelExpr.andE a b) = (SelExpr.andE a b, []) := by
            simp [orSpineH]
          rw [this] at hu
          cases hu
      exact ⟨parseNot_parens_and a b hA0, hA1, hA0⟩
    | orE a b =>
      have hsa : selSize a ≤ n := by simp only [selSize] at he; omega
      have hsb : selSize b ≤ n := by simp only [selSize] at he; omega
      have hA0 : ∀ (f : Nat) (rest : List (SelTok α)),
          4 * (printPrec 0 (SelExpr.orE a b)).length + 3 ≤ f →
          headIsAnd rest = false → headIsOr rest = false →
          parseOrL f (printPrec 0 (SelExpr.orE a b) ++ rest) =
            some (evalMask (SelExpr.orE a b), rest) := by
        apply parseOr_of_spine
        · have hhead : selSize (orSpineH (SelExpr.orE a b)).1 ≤ n := by
            have h1 := orSpineH_head_size a
            have : (orSpineH (SelExpr.orE a b)).1 = (orSpineH a).1 := by
              simp [orSpineH]
            rw [this]; omega
          exact (ih _ hhead).2.1
        · intro u hu
          have : selSize u ≤ n := by
            have := orSpineH_tail_size (SelExpr.orE a b) u hu
            simp only [selSize] at this he ⊢; omega
          exact (ih u this).2.1
      have hN : ∀ (f : Nat) (rest : List (SelTok α)),
          4 * (printPrec 2 (SelExpr.orE a b)).length + 1 ≤ f →
          parseNotL f (printPrec 2 (SelExpr.orE a b) ++ rest) =
            some (evalMask (SelExpr.orE a b), rest) :=
        parseNot_parens_or a b hA0
      have hA1 : ∀ (f : Nat) (rest : List (SelTok α)),
          4 * (printPrec 1 (SelExpr.orE a b)).length + 2 ≤ f →
          headIsAnd rest = false →
          parseAndL f (printPrec 1 (SelExpr.orE a b) ++ rest) =
            some (evalMask (SelExpr.orE a b), rest) := by
        apply parseAnd_of_spine
        · have : andSpineH (SelExpr.orE a b) = (SelExpr.orE a b, []) := by
            simp [andSpineH]
          rw [this]
          exact hN
        · have : andSpineH (SelExpr.orE a b) = (SelExpr.orE a b, []) := by
            simp [andSpineH]
          rw [this]
          intro u hu
          cases hu
      exact ⟨hN, hA1, hA0⟩

/-- C5: for every closed selector expression over known group names
built from atoms with `and`, `or`, `not` and parentheses, evaluating the
parsed expression equals the elementwise Boolean combination of the
operand masks: parsing the token string printed with the claimed
precedence (`not` tightest, `and` tighter than `or`, `and`/`or`
left-associative, parentheses only where that precedence requires them)
succeeds, consumes the whole string, and returns exactly `evalMask e`,
the elementwise `~`/`&`/`|` combination. -/
theorem selector_dsl_eval_correct (e : SelExpr α) :
    parseOrL (4 * (printPrec 0 e).length + 3) (printPrec 0 e) =
      some (evalMask e, []) := by
  have h := (parseLevels (selSize e) e (le_refl _)).2.2
  have h2 := h (4 * (printPrec 0 e).length + 3) [] (le_refl _) rfl rfl
  simpa using h2

/-- C7 counterexample to the claim as stated: a `group_constraints`
entry whose `kind` value is unrecognized is silently skipped — the loop
returns successfully with no constraint, instead of raising
`YAMLParseError`. -/
theorem unknown_group_kind_counterexample :
    processGroupConstraints [some "bogus"] = Except.ok [] ∧
    groupCstKindTag "bogus" = none := by
  constructor <;> rfl

/-- C7 (amended): an entry lacking a `kind` key makes
`generate_constraints_from_configs` raise `YAMLParseError`; when every
entry has a `kind`, generation succeeds and yields exactly the
constraints of the recognized kinds, silently skipping entries whose
`kind` value is unrecognized. -/
theorem group_constraints_kind_handling (entries : List (Option String)) :
    (none ∈ entries →
      ∃ msg, processGroupConstraints entries = .error msg) ∧
    ((∀ e ∈ entries, e ≠ none) →
      processGroupConstraints entries =
        .ok ((entries.filterMap id).filterMap groupCstKindTag)) := by
  induction entries with
  | nil =>
    exact ⟨fun h => absurd h (List.not_mem_nil none), fun _ => rfl⟩
  | cons e rest ih =>
    constructor
    · intro hmem
      cases e with
      | none => exact ⟨_, rfl⟩
      | some k =>
        have hr : none ∈ rest := by
          rcases List.mem_cons.mp hmem with h | h
          · cases h
          · exact h
        obtain ⟨msg, hmsg⟩ := ih.1 hr
        refine ⟨msg, ?_⟩
        unfold processGroupConstraints
        rw [hmsg]
    · intro hall
      cases e with
      | none => exact absurd rfl (hall none (List.mem_cons_self _ _))
      | some k =>
        have hrest := ih.2 (fun e he => hall e (List.mem_cons_of_mem _ he))
        unfold processGroupConstraints
        rw [hrest]
        cases htag : groupCstKindTag k <;>
          simp [List.filterMap_cons, htag]

/-- Concrete instantiation of `group_constraints_kind_handling`: a
missing `kind` raises; a recognized kind is kept. -/
theorem group_constraints_kind_handling_witness :
    (∃ msg, processGroupConstraints [some "time_to_first", none] =
      .error msg) ∧
    processGroupConstraints [some "time_to_first"] =
      .ok (([some "time_to_first"].filterMap id).filterMap groupCstKindTag) :=
  ⟨(group_constraints_kind_handling [some "time_to_first", none]).1
      (by decide),
   (group_constraints_kind_handling [some "time_to_first"]).2
      (by decide)⟩

/-- C8 counterexample to the claim as stated: writing a solution to a
CSV file succeeds, but reading any `.csv` solution file raises
`NotImplementedError` ("Hints are only supported with pickled
solutions"), so read-after-write is not the identity for the CSV
format. -/
theorem solution_csv_round_trip_fails :
    writeSolution "out.csv" csvSolEx =
      some (.csvText (renderSolutionCsv csvSolEx)) ∧
    readSolution "out.csv" (.csvText (renderSolutionCsv csvSolEx)) =
      .error .notImplemented := by
  constructor <;> rfl

/-- C8 (amended): read-after-write is the identity for the pickle
format: writing a solution to a `.pkl` file stores the snapshot
(backup markers included) and reading it back returns it unchanged;
for the CSV format, `read_solution` raises `NotImplementedError`
unconditionally. -/
theorem solution_pkl_round_trip (fname : String) (sol : Solution)
    (hcsv : strEndsWith fname ".csv" = false)
    (hpkl : strEndsWith fname ".pkl" = true) :
    writeSolution fname sol = some (.pickled sol) ∧
    readSolution fname (.pickled sol) = .ok sol := by
  unfold writeSolution readSolution
  rw [hcsv, hpkl]
  simp

/-- Concrete instantiation of `solution_pkl_round_trip` at `out.pkl`. -/
theorem solution_pkl_round_trip_witness :
    writeSolution "out.pkl" csvSolEx = some (.pickled csvSolEx) ∧
    readSolution "out.pkl" (.pickled csvSolEx) = .ok csvSolEx :=
  solution_pkl_round_trip "out.pkl" csvSolEx (by decide) (by decide)

/-- The assert loop succeeds iff every listed rotation is in the pool
list. -/
theorem checkRotsInPools_ok_iff (rots pool : List String) :
    checkRotsInPools rots pool = .ok () ↔ ∀ r ∈ rots, r ∈ pool := by
  induction rots with
  | nil => simp [checkRotsInPools]
  | cons r rest ih =>
    unfold checkRotsInPools
    by_cases hmem : r ∈ pool
    · rw [if_pos hmem, ih]
      constructor
      · intro h r' hr'
        rcases List.mem_cons.mp hr' with h' | h'
        · rw [h']; exact hmem
        · exact h r' h'
      · intro h r' hr'
        exact h r' (List.mem_cons_of_mem _ hr')
    · rw [if_neg hmem]
      constructor
      · intro h; cases h
      · intro h
        exact absurd (h r (List.mem_cons_self _ _)) hmem

/-- C10: building a `VacationMappingConstraint` from a config succeeds
iff every rotation declared under the config's `rotations` key belongs
to the rotation set of at least one vacation pool; otherwise the
`assert r in rots_with_pool` fails. -/
theorem vacation_mapping_requires_pool_coverage (config : SchedConfig) :
    (∃ c, vacationMappingFromYml config = .ok c) ↔
    ∀ r ∈ config.rotations,
      ∃ p ∈ config.vacation.pools, r ∈ p.2.rotations := by
  have hmem : ∀ r : String,
      (r ∈ rotsWithPool config.vacation.pools) ↔
      ∃ p ∈ config.vacation.pools, r ∈ p.2.rotations := by
    intro r
    unfold rotsWithPool
    rw [List.mem_flatten]
    constructor
    · rintro ⟨s, hs, hrs⟩
      obtain ⟨q, hq, rfl⟩ := List.mem_map.mp hs
      obtain ⟨p, hp, rfl⟩ := List.mem_map.mp hq
      exact ⟨p, hp, hrs⟩
    · rintro ⟨p, hp, hrp⟩
      exact ⟨p.2.rotations, List.mem_map.mpr
        ⟨(p.1, p.2.rotations), List.mem_map.mpr ⟨p, hp, rfl⟩, rfl⟩, hrp⟩
  unfold vacationMappingFromYml
  constructor
  · rintro ⟨c, hc⟩
    cases hchk : checkRotsInPools config.rotations
        (rotsWithPool config.vacation.pools) with
    | error e => rw [hchk] at hc; cases hc
    | ok u =>
      cases u
      intro r hr
      exact (hmem r).mp ((checkRotsInPools_ok_iff _ _).mp hchk r hr)
  · intro hcov
    have hchk : checkRotsInPools config.rotations
        (rotsWithPool config.vacation.pools) = .ok () :=
      (checkRotsInPools_ok_iff _ _).mpr
        (fun r hr => (hmem r).mpr (hcov r hr))
    rw [hchk]
    exact ⟨_, rfl⟩

end Schedulomicon
